import Mathlib

/-!
Shallow embedding of `src/.logicloops/PMLL.py` (class `PersistentMemoryLogicLoop`),
a bounded, time-expiring key-value store.

Modelling conventions:
* Python runtime values that can appear in the store are modelled by `PyVal`
  (JSON-compatible values: None, bool, numbers, strings, lists, string-keyed
  dicts).  Numeric values (including `time.time()` results and the
  `memory_timeout` configuration) are modelled as integers: every claim under
  verification uses only ordered arithmetic (`-`, `≤`, `>`), which integers
  share with Python floats.
* A Python `dict` is an association list in insertion order with pairwise
  distinct keys (`dict` iteration order is insertion order; assigning to an
  existing key keeps its position, assigning a fresh key appends).
* A raised Python exception is modelled by the `Except.error` branch carrying
  the exception class name; `Except.ok` is a normal return.
* `time.time()` is an external input and becomes an explicit `current_time`
  argument of the operations that read the clock.
-/

/-- Python values storable in the memory mapping (the JSON-compatible fragment
that the program actually persists). -/
inductive PyVal where
  | none : PyVal
  | bool : Bool → PyVal
  | int : Int → PyVal
  | str : String → PyVal
  | list : List PyVal → PyVal
  | dict : List (String × PyVal) → PyVal

mutual

/-- Python `==` on storable values (bools compare equal to the
corresponding ints, as in Python). -/
def PyVal.beq : PyVal → PyVal → Bool
  | PyVal.none, PyVal.none => true
  | PyVal.bool a, PyVal.bool b => a == b
  | PyVal.bool a, PyVal.int b => (if a then (1 : Int) else 0) == b
  | PyVal.int a, PyVal.bool b => a == (if b then (1 : Int) else 0)
  | PyVal.int a, PyVal.int b => a == b
  | PyVal.str a, PyVal.str b => a == b
  | PyVal.list xs, PyVal.list ys => PyVal.beqList xs ys
  | PyVal.dict xs, PyVal.dict ys => PyVal.beqDict xs ys
  | _, _ => false

/-- Python `==` on lists, elementwise. -/
def PyVal.beqList : List PyVal → List PyVal → Bool
  | [], [] => true
  | x :: xs, y :: ys => PyVal.beq x y && PyVal.beqList xs ys
  | _, _ => false

/-- Python `==` on string-keyed dicts as written (order-sensitive here; the
program only ever uses `==` through list membership, never on dicts). -/
def PyVal.beqDict : List (String × PyVal) → List (String × PyVal) → Bool
  | [], [] => true
  | (k1, v1) :: xs, (k2, v2) :: ys =>
      k1 == k2 && PyVal.beq v1 v2 && PyVal.beqDict xs ys
  | _, _ => false

end

/-- Exception class name of a raised Python exception. -/
abbrev PyErr := String

/-- Keys of an association-list dict, in insertion order. -/
def dictKeys (xs : List (String × PyVal)) : List String :=
  xs.map Prod.fst

/-- `k in d` for an association-list dict. -/
def dictHas : List (String × PyVal) → String → Bool
  | [], _ => false
  | p :: xs, k => p.1 = k || dictHas xs k

/-- `d[k]` lookup for an association-list dict (first binding of `k`). -/
def dictFind : List (String × PyVal) → String → Option PyVal
  | [], _ => Option.none
  | p :: xs, k => if p.1 = k then some p.2 else dictFind xs k

/-- `d[k] = v` for an association-list dict: an existing key keeps its
position, a fresh key is appended (CPython ≥ 3.7 insertion-order semantics). -/
def dictSet (xs : List (String × PyVal)) (k : String) (v : PyVal) :
    List (String × PyVal) :=
  if dictHas xs k then
    xs.map (fun p => if p.1 = k then (k, v) else p)
  else
    xs ++ [(k, v)]

/-- `del d[k]` for an association-list dict; `KeyError` when `k` is absent. -/
def dictDel (xs : List (String × PyVal)) (k : String) :
    Except PyErr (List (String × PyVal)) :=
  if dictHas xs k then
    Except.ok (xs.filter (fun p => !(p.1 = k : Bool)))
  else
    Except.error "KeyError"

/-- Python `k in container` for a string `k` (membership test); a
non-iterable container raises `TypeError`. -/
def pyContains (container : PyVal) (k : String) : Except PyErr Bool :=
  match container with
  | PyVal.dict xs => Except.ok (dictHas xs k)
  | PyVal.list xs => Except.ok (xs.any (fun v => PyVal.beq v (PyVal.str k)))
  | PyVal.str s => Except.ok ((s.splitOn k).length > 1)
  | _ => Except.error "TypeError"

/-- Python `container[k]` for a string subscript `k`: only dicts accept a
string subscript (`KeyError` when absent); every other value raises
`TypeError`. -/
def pyGetItem (container : PyVal) (k : String) : Except PyErr PyVal :=
  match container with
  | PyVal.dict xs =>
      match dictFind xs k with
      | some v => Except.ok v
      | Option.none => Except.error "KeyError"
  | _ => Except.error "TypeError"

/-- Python `container[k] = v` for a string subscript: only dicts accept it. -/
def pySetItem (container : PyVal) (k : String) (v : PyVal) :
    Except PyErr PyVal :=
  match container with
  | PyVal.dict xs => Except.ok (PyVal.dict (dictSet xs k v))
  | _ => Except.error "TypeError"

/-- Python `del container[k]` for a string subscript: only dicts accept it. -/
def pyDelItem (container : PyVal) (k : String) : Except PyErr PyVal :=
  match container with
  | PyVal.dict xs => (dictDel xs k).map PyVal.dict
  | _ => Except.error "TypeError"

/-- Python `len(container)`. -/
def pyLen (container : PyVal) : Except PyErr Nat :=
  match container with
  | PyVal.dict xs => Except.ok xs.length
  | PyVal.list xs => Except.ok xs.length
  | PyVal.str s => Except.ok s.length
  | _ => Except.error "TypeError"

/-- Python numeric coercion used by `current_time - entry["timestamp"]` and
the comparison against `memory_timeout`: ints (and bools, which are ints in
Python) are numbers, everything else raises `TypeError` when used in
arithmetic with a number. -/
def pyToInt (v : PyVal) : Except PyErr Int :=
  match v with
  | PyVal.int n => Except.ok n
  | PyVal.bool b => Except.ok (if b then 1 else 0)
  | _ => Except.error "TypeError"

/-- Modelled from the spec: `hashlib.sha256(key.encode()).hexdigest()` is
standard-library code outside this repository.  The spec stipulates a
deterministic fixed one-way digest whose collisions are "treated as never
occurring", so the digest is modelled as an injective deterministic function
of the key string (the identity embedding). -/
def sha256_hexdigest (s : String) : String := s

/-- `PersistentMemoryLogicLoop.__init__` state: `self.memory` (a Python
value, normally a dict of entry dicts), `self.memory_timeout` and
`self.max_memory_size`. -/
structure PersistentMemoryLogicLoop where
  memory : PyVal
  memory_timeout : Int
  max_memory_size : Nat

/-- `PersistentMemoryLogicLoop(memory_timeout, max_memory_size)`: fresh store
with an empty memory dict (defaults in the source: 300 and 1024). -/
def pmll_init (memory_timeout : Int) (max_memory_size : Nat) :
    PersistentMemoryLogicLoop :=
  ⟨PyVal.dict [], memory_timeout, max_memory_size⟩

/-- `_hash_key(self, key)`: `sha256(key.encode()).hexdigest()`.  Only a
string has an `.encode()` method; any other key raises `AttributeError`
inside the hashing step. -/
def _hash_key (key : PyVal) : Except PyErr String :=
  match key with
  | PyVal.str s => Except.ok (sha256_hexdigest s)
  | _ => Except.error "AttributeError"

/-- The timestamp sort key of `_prune_memory`:
`lambda x: x[1]["timestamp"]`, evaluated once per item by `sorted`, plus the
numeric coercion demanded by the comparisons the sort performs. -/
def entryTimestamp (x : String × PyVal) : Except PyErr Int := do
  let t ← pyGetItem x.2 "timestamp"
  pyToInt t

/-- An item of the memory dict paired with its precomputed integer sort key
(the value of the `"timestamp"` field), as produced by `sorted`'s `key`
argument. -/
abbrev TsKeyed := (String × PyVal) × Int

/-- Comparison used by `sorted(..., key=lambda x: x[1]["timestamp"])`: by the
precomputed key. -/
def tsLe (p q : TsKeyed) : Prop := p.2 ≤ q.2

instance : DecidableRel tsLe := fun p q => inferInstanceAs (Decidable (p.2 ≤ q.2))

instance : IsTotal TsKeyed tsLe := ⟨fun a b => Int.le_total a.2 b.2⟩

instance : IsTrans TsKeyed tsLe := ⟨fun _ _ _ => Int.le_trans⟩

/-- `sorted`'s evaluation of the key function on every item, in order, before
sorting (as CPython does); an item whose key raises aborts the whole sort. -/
def keyItems : List (String × PyVal) → Except PyErr (List TsKeyed)
  | [] => Except.ok []
  | x :: xs => do
      let t ← entryTimestamp x
      let rest ← keyItems xs
      Except.ok ((x, t) :: rest)

/-- Stable sort on the precomputed integer sort key.  Python's `sorted` is
stable, and a stable sort's output is uniquely determined by the input order
and the keys, so insertion sort that keeps equal keys in input order computes
exactly what `sorted` returns. -/
def sortByTs (l : List TsKeyed) : List TsKeyed :=
  List.insertionSort tsLe l

/-- The `while` loop of `_prune_memory`: while `len(self.memory) >
self.max_memory_size`, pop the front of `sorted_memory` and delete that key
from the memory dict (`pop(0)` on an exhausted list raises `IndexError`). -/
def pruneLoop (sorted_memory : List (String × PyVal))
    (mem : List (String × PyVal)) (max_memory_size : Nat) :
    Except PyErr (List (String × PyVal)) :=
  if mem.length > max_memory_size then
    match sorted_memory with
    | [] => Except.error "IndexError"
    | oldest :: rest => do
        let mem2 ← dictDel mem oldest.1
        pruneLoop rest mem2 max_memory_size
  else
    Except.ok mem

/-- `_prune_memory(self)`: sort the items of the memory dict by their
`"timestamp"` field (oldest first, Python's stable sort) and delete oldest
keys while the dict is over `max_memory_size`.  `.items()` on a non-dict
raises `AttributeError`; the sort key raises on an entry without a numeric
`"timestamp"`. -/
def _prune_memory (s : PersistentMemoryLogicLoop) :
    Except PyErr PersistentMemoryLogicLoop := do
  match s.memory with
  | PyVal.dict items => do
      let keyed ← keyItems items
      let sorted_memory := (sortByTs keyed).map Prod.fst
      let mem2 ← pruneLoop sorted_memory items s.max_memory_size
      pure ⟨PyVal.dict mem2, s.memory_timeout, s.max_memory_size⟩
  | _ => Except.error "AttributeError"

/-- `add_to_memory(self, key, value)`: take `current_time = time.time()`
(explicit argument here), hash the key, write
`self.memory[hashed_key] = {"timestamp": current_time, "data": value}`, and
prune when `len(self.memory) > self.max_memory_size`.  The result is the
updated store, or the raised exception. -/
def add_to_memory (s : PersistentMemoryLogicLoop) (current_time : Int)
    (key value : PyVal) : Except PyErr PersistentMemoryLogicLoop := do
  let hashed_key ← _hash_key key
  let mem ← pySetItem s.memory hashed_key
    (PyVal.dict [("timestamp", PyVal.int current_time), ("data", value)])
  let s2 : PersistentMemoryLogicLoop :=
    ⟨mem, s.memory_timeout, s.max_memory_size⟩
  let n ← pyLen s2.memory
  if n > s2.max_memory_size then
    _prune_memory s2
  else
    pure s2

/-- `get_from_memory(self, key)`: hash the key, take `current_time`
(explicit argument here); when the hashed key is in memory and
`current_time - entry["timestamp"] <= self.memory_timeout` return
`entry["data"]`, when it is in memory but stale delete the entry and return
`None`, otherwise return `None`.  The result pairs the store after the call
(the call can delete an entry) with the returned value. -/
def get_from_memory (s : PersistentMemoryLogicLoop) (current_time : Int)
    (key : PyVal) : Except PyErr (PersistentMemoryLogicLoop × PyVal) := do
  let hashed_key ← _hash_key key
  let present ← pyContains s.memory hashed_key
  if present then do
    let entry ← pyGetItem s.memory hashed_key
    let ts ← pyGetItem entry "timestamp"
    let tsInt ← pyToInt ts
    if current_time - tsInt ≤ s.memory_timeout then do
      let d ← pyGetItem entry "data"
      pure (s, d)
    else do
      let mem2 ← pyDelItem s.memory hashed_key
      pure (⟨mem2, s.memory_timeout, s.max_memory_size⟩, PyVal.none)
  else
    pure (s, PyVal.none)

/-- The persistence medium seen through `open`/`json.dump`/`json.load`:
either no file, a file whose text is not valid JSON, or a file holding one
JSON document.  The JSON documents this program ever writes or reads are
exactly the `PyVal` values (string-keyed objects, arrays, strings, numbers,
booleans, null), and `json.load (json.dump v)` is the identity on them, so a
well-formed file is modelled as carrying the `PyVal` it decodes to. -/
inductive FileState where
  | absent : FileState
  | malformed : FileState
  | jsonDoc : PyVal → FileState

/-- `save_memory(self, filename)`: `json.dump(self.memory, file)` after
truncating the file.  Returns the new file contents; the store itself is not
touched. -/
def save_memory (s : PersistentMemoryLogicLoop) : FileState :=
  FileState.jsonDoc s.memory

/-- `load_memory(self, filename)`: `self.memory = json.load(file)`, with
`except FileNotFoundError: self.memory = {}`.  A missing file resets memory
to the empty dict; malformed JSON raises `json.JSONDecodeError` (not caught,
reported to the caller) before the assignment, so the prior memory survives.
The result pairs the store after the call with the escaped exception, if
any. -/
def load_memory (s : PersistentMemoryLogicLoop) (file : FileState) :
    PersistentMemoryLogicLoop × Option PyErr :=
  match file with
  | FileState.absent =>
      (⟨PyVal.dict [], s.memory_timeout, s.max_memory_size⟩, Option.none)
  | FileState.malformed => (s, some "JSONDecodeError")
  | FileState.jsonDoc v =>
      (⟨v, s.memory_timeout, s.max_memory_size⟩, Option.none)

/-- The entry dict `{"timestamp": current_time, "data": value}` that
`add_to_memory` writes. -/
def freshEntry (current_time : Int) (value : PyVal) : PyVal :=
  PyVal.dict [("timestamp", PyVal.int current_time), ("data", value)]

/-- The timestamp of a memory item when its entry is well formed (0 is a
dummy for ill-formed entries, never relied upon). -/
def tsOf (p : String × PyVal) : Int :=
  match entryTimestamp p with
  | Except.ok n => n
  | Except.error _ => 0

/-- A well-formed entry as produced by `add_to_memory` or by reloading a
saved store: a dict with a numeric `"timestamp"` field and a `"data"`
field. -/
def isWFEntry (e : PyVal) : Bool :=
  match e with
  | PyVal.dict fields =>
      (match dictFind fields "timestamp" with
       | some (PyVal.int _) => true
       | some (PyVal.bool _) => true
       | _ => false)
      && (dictFind fields "data").isSome
  | _ => false

example :
    add_to_memory (pmll_init 600 500) 0 (PyVal.str "user_123")
      (PyVal.str "hello")
    = Except.ok ⟨PyVal.dict [("user_123", freshEntry 0 (PyVal.str "hello"))],
        600, 500⟩ := rfl

example :
    (add_to_memory (pmll_init 300 0) 0 (PyVal.str "k") (PyVal.int 1)).map
      (fun s => s.memory)
    = Except.ok (PyVal.dict []) := rfl

/-! ### Association-list dict lemmas -/

theorem dictHas_iff_mem_keys {xs : List (String × PyVal)} {k : String} :
    dictHas xs k = true ↔ k ∈ dictKeys xs := by
  induction xs with
  | nil => simp [dictHas, dictKeys]
  | cons p rest ih =>
      simp only [dictHas, Bool.or_eq_true, decide_eq_true_eq, ih, dictKeys,
        List.map_cons, List.mem_cons]
      constructor
      · rintro (h | h)
        · exact Or.inl h.symm
        · exact Or.inr h
      · rintro (h | h)
        · exact Or.inl h.symm
        · exact Or.inr h

theorem dictFind_isSome {xs : List (String × PyVal)} {k : String} :
    (dictFind xs k).isSome = dictHas xs k := by
  induction xs with
  | nil => rfl
  | cons p rest ih =>
      by_cases h : p.1 = k <;> simp [dictFind, dictHas, h, ih]

theorem dictHas_of_find {xs : List (String × PyVal)} {k : String} {v : PyVal}
    (h : dictFind xs k = some v) : dictHas xs k = true := by
  rw [← dictFind_isSome, h]
  rfl

theorem dictFind_dictSet_self (xs : List (String × PyVal)) (k : String)
    (v : PyVal) : dictFind (dictSet xs k v) k = some v := by
  unfold dictSet
  by_cases h : dictHas xs k = true
  · rw [if_pos h]
    induction xs with
    | nil => simp [dictHas] at h
    | cons p rest ih =>
        by_cases hp : p.1 = k
        · simp [dictFind, hp]
        · simp [dictHas, hp] at h
          simp [dictFind, hp, ih h]
  · rw [if_neg h]
    induction xs with
    | nil => simp [dictFind]
    | cons p rest ih =>
        simp [dictHas] at h
        push_neg at h
        simp [dictFind, h.1, ih (by simpa using h.2)]

theorem dictFind_setMap_ne (xs : List (String × PyVal)) {k k2 : String}
    (v : PyVal) (hne : k2 ≠ k) :
    dictFind (xs.map (fun p => if p.1 = k then (k, v) else p)) k2
      = dictFind xs k2 := by
  induction xs with
  | nil => rfl
  | cons p rest ih =>
      by_cases hp : p.1 = k
      · have hk2 : ¬ ((k : String) = k2) := fun hh => hne hh.symm
        have hp2 : ¬ (p.1 = k2) := by rw [hp]; exact hk2
        simp [dictFind, hp, hk2, hp2, ih]
      · by_cases hq : p.1 = k2
        · simp [dictFind, hp, hq, hne, ih]
        · simp [dictFind, hp, hq, ih]

theorem dictFind_append_ne (xs : List (String × PyVal)) {k k2 : String}
    (v : PyVal) (hne : k2 ≠ k) :
    dictFind (xs ++ [(k, v)]) k2 = dictFind xs k2 := by
  induction xs with
  | nil =>
      have hk2 : ¬ ((k : String) = k2) := fun hh => hne hh.symm
      simp [dictFind, hk2]
  | cons p rest ih =>
      by_cases hq : p.1 = k2 <;> simp [dictFind, hq, ih]

theorem dictFind_dictSet_ne (xs : List (String × PyVal)) {k k2 : String}
    (v : PyVal) (hne : k2 ≠ k) :
    dictFind (dictSet xs k v) k2 = dictFind xs k2 := by
  unfold dictSet
  by_cases h : dictHas xs k = true
  · rw [if_pos h]
    exact dictFind_setMap_ne xs v hne
  · rw [if_neg h]
    exact dictFind_append_ne xs v hne

theorem dictKeys_dictSet (xs : List (String × PyVal)) (k : String)
    (v : PyVal) :
    dictKeys (dictSet xs k v)
      = if dictHas xs k then dictKeys xs else dictKeys xs ++ [k] := by
  unfold dictSet
  by_cases h : dictHas xs k = true
  · rw [if_pos h, if_pos h]
    unfold dictKeys
    rw [List.map_map]
    apply List.map_congr_left
    intro p _
    by_cases hp : p.1 = k
    · simp [Function.comp, hp]
    · simp [Function.comp, hp]
  · rw [if_neg h, if_neg h]
    simp [dictKeys]

theorem dictSet_length (xs : List (String × PyVal)) (k : String) (v : PyVal) :
    (dictSet xs k v).length
      = if dictHas xs k then xs.length else xs.length + 1 := by
  unfold dictSet
  by_cases h : dictHas xs k = true <;> simp [h]

theorem dictKeys_nodup_dictSet {xs : List (String × PyVal)} (k : String)
    (v : PyVal) (hnd : (dictKeys xs).Nodup) :
    (dictKeys (dictSet xs k v)).Nodup := by
  rw [dictKeys_dictSet]
  by_cases h : dictHas xs k = true
  · simpa [h] using hnd
  · have hk : k ∉ dictKeys xs := by
      intro hmem
      exact h (dictHas_iff_mem_keys.mpr hmem)
    simp [h, List.nodup_append, hnd, hk]

theorem mem_dictSet_self (xs : List (String × PyVal)) (k : String)
    (v : PyVal) : (k, v) ∈ dictSet xs k v := by
  unfold dictSet
  by_cases h : dictHas xs k = true
  · rw [if_pos h]
    induction xs with
    | nil => simp [dictHas] at h
    | cons p rest ih =>
        by_cases hp : p.1 = k
        · simp [hp]
        · simp [dictHas, hp] at h
          simp [hp]
          right
          simpa using ih h
  · rw [if_neg h]
    simp

theorem mem_dictSet_of_ne {xs : List (String × PyVal)} {k : String}
    {v : PyVal} {p : String × PyVal} (hmem : p ∈ dictSet xs k v)
    (hne : p.1 ≠ k) : p ∈ xs := by
  unfold dictSet at hmem
  by_cases h : dictHas xs k = true
  · rw [if_pos h] at hmem
    rcases List.mem_map.mp hmem with ⟨q, hq, hqe⟩
    by_cases hqk : q.1 = k
    · rw [if_pos hqk] at hqe
      exact absurd (by rw [← hqe]) hne
    · rw [if_neg hqk] at hqe
      exact hqe ▸ hq
  · rw [if_neg h] at hmem
    rcases List.mem_append.mp hmem with hl | hr
    · exact hl
    · simp at hr
      exact absurd (by rw [hr]) hne

theorem dictFind_filter {xs : List (String × PyVal)} {k : String}
    (q : String → Bool) (hq : q k = true) :
    dictFind (xs.filter (fun p => q p.1)) k = dictFind xs k := by
  induction xs with
  | nil => rfl
  | cons p rest ih =>
      by_cases hp : p.1 = k
      · simp [List.filter_cons, dictFind, hp, hq]
      · by_cases hqp : q p.1 = true <;>
          simp [List.filter_cons, hqp, dictFind, hp, ih]

theorem dictKeys_filter (xs : List (String × PyVal)) (q : String → Bool) :
    dictKeys (xs.filter (fun p => q p.1)) = (dictKeys xs).filter q := by
  induction xs with
  | nil => rfl
  | cons p rest ih =>
      simp only [dictKeys] at ih ⊢
      by_cases hqp : q p.1 = true <;>
        simp [List.filter_cons, hqp, ih]

theorem dictKeys_filter_del (xs : List (String × PyVal)) (k : String) :
    dictKeys (xs.filter (fun p => !(p.1 = k : Bool)))
      = (dictKeys xs).filter (fun s => !(s = k : Bool)) :=
  dictKeys_filter xs (fun s => !(s = k : Bool))

theorem dictHas_filter_self (xs : List (String × PyVal)) (k : String) :
    dictHas (xs.filter (fun p => !(p.1 = k : Bool))) k = false := by
  induction xs with
  | nil => rfl
  | cons p rest ih =>
      by_cases hp : p.1 = k <;> simp [List.filter_cons, hp, dictHas, ih]

theorem filter_del_eq_self {xs : List (String × PyVal)} {k : String}
    (h : dictHas xs k = false) :
    xs.filter (fun p => !(p.1 = k : Bool)) = xs := by
  induction xs with
  | nil => rfl
  | cons p rest ih =>
      simp [dictHas] at h
      push_neg at h
      simp [List.filter_cons, h.1, ih (by simpa using h.2)]

theorem filter_del_length {xs : List (String × PyVal)} {k : String}
    (hnd : (dictKeys xs).Nodup) (h : dictHas xs k = true) :
    (xs.filter (fun p => !(p.1 = k : Bool))).length = xs.length - 1 := by
  induction xs with
  | nil => simp [dictHas] at h
  | cons p rest ih =>
      simp only [dictKeys, List.map_cons, List.nodup_cons] at hnd
      by_cases hp : p.1 = k
      · have hk : dictHas rest k = false := by
          cases hres : dictHas rest k with
          | false => rfl
          | true =>
              exact absurd (hp ▸ dictHas_iff_mem_keys.mp hres) hnd.1
        simp [List.filter_cons, hp, filter_del_eq_self hk]
      · have hrest : dictHas rest k = true := by
          simpa [dictHas, hp] using h
        have hne : rest ≠ [] := by
          intro hnil
          rw [hnil] at hrest
          simp [dictHas] at hrest
        have hlen : 1 ≤ rest.length := List.length_pos.mpr hne
        have hind := ih hnd.2 hrest
        simp [List.filter_cons, hp, hind]
        omega

/-! ### Well-formed entries, sort-key evaluation, and the stable sort -/

theorem entryTimestamp_of_wf {p : String × PyVal}
    (h : isWFEntry p.2 = true) : entryTimestamp p = Except.ok (tsOf p) := by
  cases hv : p.2 with
  | dict fields =>
      rw [hv] at h
      simp only [isWFEntry] at h
      cases hts : dictFind fields "timestamp" with
      | none => rw [hts] at h; simp at h
      | some tv =>
          rw [hts] at h
          cases tv with
          | int n =>
              have he : entryTimestamp p = Except.ok n := by
                simp [entryTimestamp, pyGetItem, hv, hts, pyToInt]
                rfl
              rw [he]
              unfold tsOf
              rw [he]
          | bool b =>
              have he : entryTimestamp p = Except.ok (if b then 1 else 0) := by
                simp [entryTimestamp, pyGetItem, hv, hts, pyToInt]
                rfl
              rw [he]
              unfold tsOf
              rw [he]
          | none => simp at h
          | str s => simp at h
          | list l => simp at h
          | dict d => simp at h
  | none => rw [hv] at h; simp [isWFEntry] at h
  | bool b => rw [hv] at h; simp [isWFEntry] at h
  | int n => rw [hv] at h; simp [isWFEntry] at h
  | str s => rw [hv] at h; simp [isWFEntry] at h
  | list l => rw [hv] at h; simp [isWFEntry] at h

theorem data_of_wf {p : String × PyVal} (h : isWFEntry p.2 = true) :
    ∃ v, pyGetItem p.2 "data" = Except.ok v := by
  cases hv : p.2 with
  | dict fields =>
      rw [hv] at h
      simp only [isWFEntry] at h
      have hd : (dictFind fields "data").isSome = true := by
        cases hts : dictFind fields "timestamp" with
        | none => rw [hts] at h; simp at h
        | some tv => rw [hts] at h; exact (Bool.and_eq_true _ _ |>.mp h).2
      cases hdd : dictFind fields "data" with
      | none => rw [hdd] at hd; simp at hd
      | some v => exact ⟨v, by simp [pyGetItem, hv, hdd]⟩
  | none => rw [hv] at h; simp [isWFEntry] at h
  | bool b => rw [hv] at h; simp [isWFEntry] at h
  | int n => rw [hv] at h; simp [isWFEntry] at h
  | str s => rw [hv] at h; simp [isWFEntry] at h
  | list l => rw [hv] at h; simp [isWFEntry] at h

theorem isWFEntry_freshEntry (t : Int) (v : PyVal) :
    isWFEntry (freshEntry t v) = true := rfl

theorem entryTimestamp_freshEntry (k : String) (t : Int) (v : PyVal) :
    entryTimestamp (k, freshEntry t v) = Except.ok t := rfl

theorem tsOf_freshEntry (k : String) (t : Int) (v : PyVal) :
    tsOf (k, freshEntry t v) = t := rfl

theorem keyItems_of_wf {l : List (String × PyVal)}
    (h : ∀ p ∈ l, isWFEntry p.2 = true) :
    keyItems l = Except.ok (l.map (fun p => (p, tsOf p))) := by
  induction l with
  | nil => rfl
  | cons p rest ih =>
      have hp := entryTimestamp_of_wf (h p (List.mem_cons_self p rest))
      have hrest := ih (fun q hq => h q (List.mem_cons_of_mem p hq))
      simp [keyItems, hp, hrest]
      rfl

theorem sortByTs_perm (l : List TsKeyed) : List.Perm (sortByTs l) l :=
  List.perm_insertionSort tsLe l

theorem sortByTs_pairwise (l : List TsKeyed) :
    List.Pairwise tsLe (sortByTs l) :=
  List.sorted_insertionSort tsLe l

theorem cons_filter_perm {a : String} {l : List String} (ha : a ∈ l)
    (hnd : l.Nodup) :
    List.Perm l (a :: l.filter (fun s => !(s = a : Bool))) := by
  induction l with
  | nil => cases ha
  | cons b rest ih =>
      rcases List.mem_cons.mp ha with hb | hmem
      · subst hb
        have hnotin : a ∉ rest := (List.nodup_cons.mp hnd).1
        have : rest.filter (fun s => !(s = a : Bool)) = rest := by
          apply List.filter_eq_self.mpr
          intro s hs
          simp
          intro hsa
          exact hnotin (hsa ▸ hs)
        simp [List.filter_cons, this]
      · have hba : ¬ (b = a) := by
          intro hb
          exact (List.nodup_cons.mp hnd).1 (by rw [hb]; exact hmem)
        have hper := ih hmem (List.nodup_cons.mp hnd).2
        have h1 : List.Perm (b :: rest)
            (b :: a :: rest.filter (fun s => !(s = a : Bool))) :=
          hper.cons b
        have h2 : List.Perm
            (b :: a :: rest.filter (fun s => !(s = a : Bool)))
            (a :: b :: rest.filter (fun s => !(s = a : Bool))) :=
          List.Perm.swap a b _
        have h3 := h1.trans h2
        have hfc : (b :: rest).filter (fun s => !(s = a : Bool))
            = b :: rest.filter (fun s => !(s = a : Bool)) := by
          simp [List.filter_cons, hba]
        rw [hfc]
        exact h3

/-! ### Reduction lemmas for the `Except` monad and the prune loop -/

theorem ok_bind {α β : Type} (a : α) (f : α → Except PyErr β) :
    (Except.ok a >>= f) = f a := rfl

theorem error_bind {α β : Type} (e : PyErr) (f : α → Except PyErr β) :
    ((Except.error e : Except PyErr α) >>= f) = Except.error e := rfl

theorem pruneLoop_length (sorted_memory : List (String × PyVal)) :
    ∀ mem out mx, pruneLoop sorted_memory mem mx = Except.ok out →
      (dictKeys mem).Nodup → out.length = min mem.length mx := by
  induction sorted_memory with
  | nil =>
      intro mem out mx hok hnd
      unfold pruneLoop at hok
      by_cases h : mem.length > mx
      · rw [if_pos h] at hok
        simp at hok
      · rw [if_neg h] at hok
        cases hok
        omega
  | cons o rest ih =>
      intro mem out mx hok hnd
      unfold pruneLoop at hok
      by_cases h : mem.length > mx
      · rw [if_pos h] at hok
        have hok2 : (dictDel mem o.1 >>= fun mem2 => pruneLoop rest mem2 mx)
            = Except.ok out := hok
        by_cases hh : dictHas mem o.1 = true
        · have hdel : dictDel mem o.1
              = Except.ok (mem.filter (fun p => !(p.1 = o.1 : Bool))) := by
            simp [dictDel, hh]
          rw [hdel, ok_bind] at hok2
          have hnd2 : (dictKeys (mem.filter
              (fun p => !(p.1 = o.1 : Bool)))).Nodup := by
            rw [dictKeys_filter_del]
            exact hnd.filter _
          have hlen2 := filter_del_length hnd hh
          have hrec := ih _ out mx hok2 hnd2
          rw [hlen2] at hrec
          omega
        · have hdel : dictDel mem o.1 = Except.error "KeyError" := by
            simp [dictDel, hh]
          rw [hdel, error_bind] at hok2
          simp at hok2
      · rw [if_neg h] at hok
        cases hok
        omega

theorem pruneLoop_ok_eq (sorted_memory : List (String × PyVal)) :
    ∀ mem out mx, pruneLoop sorted_memory mem mx = Except.ok out →
      (dictKeys mem).Nodup →
      out = mem.filter (fun p =>
        !(decide (p.1 ∈ (sorted_memory.take (mem.length - mx)).map
            Prod.fst))) := by
  induction sorted_memory with
  | nil =>
      intro mem out mx hok hnd
      unfold pruneLoop at hok
      by_cases h : mem.length > mx
      · rw [if_pos h] at hok
        simp at hok
      · rw [if_neg h] at hok
        cases hok
        have h0 : mem.length - mx = 0 := by omega
        rw [h0]
        refine (List.filter_eq_self.mpr ?_).symm
        intro p _
        simp
  | cons o rest ih =>
      intro mem out mx hok hnd
      unfold pruneLoop at hok
      by_cases h : mem.length > mx
      · rw [if_pos h] at hok
        have hok2 : (dictDel mem o.1 >>= fun mem2 => pruneLoop rest mem2 mx)
            = Except.ok out := hok
        by_cases hh : dictHas mem o.1 = true
        · have hdel : dictDel mem o.1
              = Except.ok (mem.filter (fun p => !(p.1 = o.1 : Bool))) := by
            simp [dictDel, hh]
          rw [hdel, ok_bind] at hok2
          have hnd2 : (dictKeys (mem.filter
              (fun p => !(p.1 = o.1 : Bool)))).Nodup := by
            rw [dictKeys_filter_del]
            exact hnd.filter _
          have hlen2 := filter_del_length hnd hh
          have hrec := ih _ out mx hok2 hnd2
          rw [hlen2] at hrec
          have hsub : mem.length - mx = (mem.length - 1 - mx) + 1 := by omega
          rw [hsub, List.take_succ_cons, List.map_cons]
          rw [hrec, List.filter_filter]
          apply List.filter_congr
          intro p _
          by_cases hpo : p.1 = o.1 <;>
            by_cases hpk : p.1 ∈ (rest.take (mem.length - 1 - mx)).map
              Prod.fst <;>
            simp [hpo, hpk]
        · have hdel : dictDel mem o.1 = Except.error "KeyError" := by
            simp [dictDel, hh]
          rw [hdel, error_bind] at hok2
          simp at hok2
      · rw [if_neg h] at hok
        cases hok
        have h0 : mem.length - mx = 0 := by omega
        rw [h0]
        refine (List.filter_eq_self.mpr ?_).symm
        intro p _
        simp

theorem pruneLoop_ok_exists (sorted_memory : List (String × PyVal)) :
    ∀ mem mx, (dictKeys mem).Nodup →
      List.Perm (sorted_memory.map Prod.fst) (dictKeys mem) →
      ∃ out, pruneLoop sorted_memory mem mx = Except.ok out := by
  induction sorted_memory with
  | nil =>
      intro mem mx hnd hperm
      unfold pruneLoop
      by_cases h : mem.length > mx
      · simp only [List.map_nil] at hperm
        have hkeys : dictKeys mem = [] := hperm.symm.eq_nil
        have hm : mem = [] := by
          cases mem with
          | nil => rfl
          | cons p r => simp [dictKeys] at hkeys
        rw [hm] at h
        simp at h
      · rw [if_neg h]
        exact ⟨mem, rfl⟩
  | cons o rest ih =>
      intro mem mx hnd hperm
      unfold pruneLoop
      by_cases h : mem.length > mx
      · rw [if_pos h]
        show ∃ out,
          (dictDel mem o.1 >>= fun mem2 => pruneLoop rest mem2 mx)
            = Except.ok out
        simp only [List.map_cons] at hperm
        have ho : o.1 ∈ dictKeys mem :=
          hperm.mem_iff.mp (List.mem_cons_self _ _)
        have hh : dictHas mem o.1 = true := dictHas_iff_mem_keys.mpr ho
        have hdel : dictDel mem o.1
            = Except.ok (mem.filter (fun p => !(p.1 = o.1 : Bool))) := by
          simp [dictDel, hh]
        rw [hdel, ok_bind]
        have hnd2 : (dictKeys (mem.filter
            (fun p => !(p.1 = o.1 : Bool)))).Nodup := by
          rw [dictKeys_filter_del]
          exact hnd.filter _
        have hp2 : List.Perm (rest.map Prod.fst)
            (dictKeys (mem.filter (fun p => !(p.1 = o.1 : Bool)))) := by
          rw [dictKeys_filter_del]
          exact (hperm.trans (cons_filter_perm ho hnd)).cons_inv
        exact ih _ mx hnd2 hp2
      · rw [if_neg h]
        exact ⟨mem, rfl⟩

/-! ### Membership in a stably sorted list, and dictSet membership -/

theorem mem_dictSet {xs : List (String × PyVal)} {k : String} {v : PyVal}
    {p : String × PyVal} (hmem : p ∈ dictSet xs k v) :
    p = (k, v) ∨ p ∈ xs := by
  unfold dictSet at hmem
  by_cases h : dictHas xs k = true
  · rw [if_pos h] at hmem
    rcases List.mem_map.mp hmem with ⟨q, hq, hqe⟩
    by_cases hqk : q.1 = k
    · rw [if_pos hqk] at hqe
      exact Or.inl hqe.symm
    · rw [if_neg hqk] at hqe
      exact Or.inr (hqe ▸ hq)
  · rw [if_neg h] at hmem
    rcases List.mem_append.mp hmem with hl | hr
    · exact Or.inr hl
    · simp at hr
      exact Or.inl hr

theorem dictFind_mem {xs : List (String × PyVal)} {k : String} {v : PyVal}
    (h : dictFind xs k = some v) : (k, v) ∈ xs := by
  induction xs with
  | nil => simp [dictFind] at h
  | cons p rest ih =>
      by_cases hp : p.1 = k
      · simp [dictFind, hp] at h
        have hpe : p = (k, v) := Prod.ext_iff.mpr ⟨hp, h⟩
        rw [← hpe]
        exact List.mem_cons_self p rest
      · simp [dictFind, hp] at h
        exact List.mem_cons_of_mem p (ih h)

theorem sorted_key_max_take {σ : List TsKeyed} {x : TsKeyed} {m : Nat}
    (hsort : List.Pairwise tsLe σ)
    (hnd : (σ.map (fun p => p.1.1)).Nodup)
    (hx : x ∈ σ)
    (hmax : ∀ y ∈ σ, y.1.1 ≠ x.1.1 → y.2 < x.2)
    (hm : m + 1 ≤ σ.length) :
    ∀ y ∈ σ.take m, y.1.1 ≠ x.1.1 := by
  intro y hy hkey
  have hyσ : y ∈ σ := (List.take_sublist m σ).subset hy
  have hyx : y = x := List.inj_on_of_nodup_map hnd hyσ hx hkey
  subst hyx
  have hσ : σ.take m ++ σ.drop m = σ := List.take_append_drop m σ
  have hdlen : (σ.drop m).length = σ.length - m := List.length_drop m σ
  cases hd : σ.drop m with
  | nil =>
      rw [hd] at hdlen
      simp at hdlen
      omega
  | cons z zs =>
      have hz : z ∈ σ.drop m := by
        rw [hd]
        exact List.mem_cons_self _ _
      have hzσ : z ∈ σ := (List.drop_sublist m σ).subset hz
      have hpw : List.Pairwise tsLe (σ.take m ++ σ.drop m) := by
        rw [hσ]
        exact hsort
      have hcross : y.2 ≤ z.2 := (List.pairwise_append.mp hpw).2.2 y hy z hz
      have hndσ : σ.Nodup := List.Nodup.of_map _ hnd
      have hdisj : List.Disjoint (σ.take m) (σ.drop m) := by
        have hnd2 : (σ.take m ++ σ.drop m).Nodup := by
          rw [hσ]
          exact hndσ
        exact (List.nodup_append.mp hnd2).2.2
      by_cases hzy : z.1.1 = y.1.1
      · have hzeq : z = y := List.inj_on_of_nodup_map hnd hzσ hyσ hzy
        exact hdisj hy (hzeq ▸ hz)
      · have hlt := hmax z hzσ hzy
        omega

/-! ### Unfolding equations and behaviour lemmas for `get` and `put` -/

theorem get_from_memory_str_eq (xs : List (String × PyVal)) (tt : Int)
    (cap : Nat) (t : Int) (k : String) :
    get_from_memory ⟨PyVal.dict xs, tt, cap⟩ t (PyVal.str k)
      = (if dictHas xs (sha256_hexdigest k) then
          (pyGetItem (PyVal.dict xs) (sha256_hexdigest k) >>= fun entry =>
           pyGetItem entry "timestamp" >>= fun ts =>
           pyToInt ts >>= fun tsInt =>
           if t - tsInt ≤ tt then
             pyGetItem entry "data" >>= fun d =>
             Except.ok (⟨PyVal.dict xs, tt, cap⟩, d)
           else
             pyDelItem (PyVal.dict xs) (sha256_hexdigest k) >>= fun mem2 =>
             Except.ok (⟨mem2, tt, cap⟩, PyVal.none))
         else Except.ok (⟨PyVal.dict xs, tt, cap⟩, PyVal.none)) := rfl

theorem add_to_memory_str_eq (xs : List (String × PyVal)) (tt : Int)
    (cap : Nat) (t : Int) (k : String) (v : PyVal) :
    add_to_memory ⟨PyVal.dict xs, tt, cap⟩ t (PyVal.str k) v
      = (if (dictSet xs (sha256_hexdigest k) (freshEntry t v)).length > cap
         then _prune_memory
           ⟨PyVal.dict (dictSet xs (sha256_hexdigest k) (freshEntry t v)),
             tt, cap⟩
         else Except.ok
           ⟨PyVal.dict (dictSet xs (sha256_hexdigest k) (freshEntry t v)),
             tt, cap⟩) := rfl

theorem prune_memory_dict_eq (ys : List (String × PyVal)) (tt : Int)
    (cap : Nat) :
    _prune_memory ⟨PyVal.dict ys, tt, cap⟩
      = (keyItems ys >>= fun keyed =>
         pruneLoop ((sortByTs keyed).map Prod.fst) ys cap >>= fun mem2 =>
         Except.ok ⟨PyVal.dict mem2, tt, cap⟩) := rfl

theorem get_hit {xs ef : List (String × PyVal)} {tt : Int} {cap : Nat}
    {t : Int} {k : String} {tsv : PyVal} {ts : Int} {v : PyVal}
    (hfind : dictFind xs (sha256_hexdigest k) = some (PyVal.dict ef))
    (hts : dictFind ef "timestamp" = some tsv)
    (htsi : pyToInt tsv = Except.ok ts)
    (hfresh : t - ts ≤ tt)
    (hdata : dictFind ef "data" = some v) :
    get_from_memory ⟨PyVal.dict xs, tt, cap⟩ t (PyVal.str k)
      = Except.ok (⟨PyVal.dict xs, tt, cap⟩, v) := by
  have hhas := dictHas_of_find hfind
  rw [get_from_memory_str_eq, if_pos hhas]
  simp only [pyGetItem, hfind, ok_bind, hts, htsi]
  rw [if_pos hfresh]
  simp [hdata, ok_bind]

theorem get_expired {xs ef : List (String × PyVal)} {tt : Int} {cap : Nat}
    {t : Int} {k : String} {tsv : PyVal} {ts : Int}
    (hfind : dictFind xs (sha256_hexdigest k) = some (PyVal.dict ef))
    (hts : dictFind ef "timestamp" = some tsv)
    (htsi : pyToInt tsv = Except.ok ts)
    (hstale : ¬ (t - ts ≤ tt)) :
    get_from_memory ⟨PyVal.dict xs, tt, cap⟩ t (PyVal.str k)
      = Except.ok
          (⟨PyVal.dict (xs.filter
              (fun p => !(p.1 = sha256_hexdigest k : Bool))), tt, cap⟩,
            PyVal.none) := by
  have hhas := dictHas_of_find hfind
  rw [get_from_memory_str_eq, if_pos hhas]
  simp only [pyGetItem, hfind, ok_bind, hts, htsi]
  rw [if_neg hstale]
  simp [pyDelItem, dictDel, hhas, ok_bind, Except.map]

theorem get_absent {xs : List (String × PyVal)} {tt : Int} {cap : Nat}
    {t : Int} {k : String}
    (habs : dictHas xs (sha256_hexdigest k) = false) :
    get_from_memory ⟨PyVal.dict xs, tt, cap⟩ t (PyVal.str k)
      = Except.ok (⟨PyVal.dict xs, tt, cap⟩, PyVal.none) := by
  rw [get_from_memory_str_eq]
  simp [habs]

theorem get_ok_inversion {xs : List (String × PyVal)} {tt : Int} {cap : Nat}
    {t : Int} {k : String} {s2 : PersistentMemoryLogicLoop} {r : PyVal}
    (hok : get_from_memory ⟨PyVal.dict xs, tt, cap⟩ t (PyVal.str k)
      = Except.ok (s2, r)) :
    s2 = ⟨PyVal.dict xs, tt, cap⟩ ∨
    s2 = ⟨PyVal.dict (xs.filter
        (fun p => !(p.1 = sha256_hexdigest k : Bool))), tt, cap⟩ := by
  rw [get_from_memory_str_eq] at hok
  by_cases hhas : dictHas xs (sha256_hexdigest k) = true
  · rw [if_pos hhas] at hok
    cases hfind : dictFind xs (sha256_hexdigest k) with
    | none =>
        have := @dictFind_isSome xs (sha256_hexdigest k)
        rw [hfind, hhas] at this
        simp at this
    | some e =>
        simp only [pyGetItem, hfind, ok_bind] at hok
        cases e with
        | dict ef =>
            cases hts : dictFind ef "timestamp" with
            | none => simp [hts, error_bind] at hok
            | some tsv =>
                simp only [hts, ok_bind] at hok
                cases htsi : pyToInt tsv with
                | error e2 => rw [htsi, error_bind] at hok; simp at hok
                | ok ts =>
                    rw [htsi, ok_bind] at hok
                    by_cases hfr : t - ts ≤ tt
                    · rw [if_pos hfr] at hok
                      cases hdata : dictFind ef "data" with
                      | none => simp [hdata, error_bind] at hok
                      | some dv =>
                          simp only [hdata, ok_bind] at hok
                          left
                          cases hok
                          rfl
                    · rw [if_neg hfr] at hok
                      simp only [pyDelItem, dictDel, hhas, if_true,
                        Except.map, ok_bind] at hok
                      right
                      cases hok
                      rfl
        | none => simp [error_bind] at hok
        | bool b => simp [error_bind] at hok
        | int n => simp [error_bind] at hok
        | str st => simp [error_bind] at hok
        | list l => simp [error_bind] at hok
  · have hf : dictHas xs (sha256_hexdigest k) = false := by
      cases hv : dictHas xs (sha256_hexdigest k) with
      | false => rfl
      | true => exact absurd hv hhas
    rw [if_neg (by rw [hf]; simp : ¬ (dictHas xs (sha256_hexdigest k) = true))]
      at hok
    left
    cases hok
    rfl

theorem wf_entry_shape {e : PyVal} (h : isWFEntry e = true) :
    ∃ ef tsv ts dv, e = PyVal.dict ef ∧
      dictFind ef "timestamp" = some tsv ∧
      pyToInt tsv = Except.ok ts ∧
      dictFind ef "data" = some dv := by
  cases e with
  | dict fields =>
      simp only [isWFEntry] at h
      cases hts : dictFind fields "timestamp" with
      | none => rw [hts] at h; simp at h
      | some tv =>
          rw [hts] at h
          have hd : (dictFind fields "data").isSome = true :=
            (Bool.and_eq_true _ _ |>.mp h).2
          cases hdd : dictFind fields "data" with
          | none => rw [hdd] at hd; simp at hd
          | some dv =>
              cases tv with
              | int n => exact ⟨fields, PyVal.int n, n, dv, rfl, hts, rfl, hdd⟩
              | bool b =>
                  exact ⟨fields, PyVal.bool b, if b then 1 else 0, dv, rfl,
                    hts, rfl, hdd⟩
              | none => simp at h
              | str s => simp at h
              | list l => simp at h
              | dict d => simp at h
  | none => simp [isWFEntry] at h
  | bool b => simp [isWFEntry] at h
  | int n => simp [isWFEntry] at h
  | str s => simp [isWFEntry] at h
  | list l => simp [isWFEntry] at h

theorem add_ok_of_wf {xs : List (String × PyVal)} {tt : Int} {cap : Nat}
    {t : Int} {k : String} {v : PyVal}
    (hnd : (dictKeys xs).Nodup) (hwf : ∀ p ∈ xs, isWFEntry p.2 = true) :
    add_to_memory ⟨PyVal.dict xs, tt, cap⟩ t (PyVal.str k) v
      = Except.ok ⟨PyVal.dict
          ((dictSet xs (sha256_hexdigest k) (freshEntry t v)).filter
            (fun p => !(decide (p.1 ∈
              ((((sortByTs ((dictSet xs (sha256_hexdigest k)
                  (freshEntry t v)).map (fun q => (q, tsOf q)))).map
                  Prod.fst).take
                ((dictSet xs (sha256_hexdigest k)
                  (freshEntry t v)).length - cap)).map Prod.fst))))),
          tt, cap⟩ := by
  rw [add_to_memory_str_eq]
  set hk := sha256_hexdigest k with hhk
  set fe := freshEntry t v with hfe
  set mem1 := dictSet xs hk fe with hmem1
  have hnd1 : (dictKeys mem1).Nodup := dictKeys_nodup_dictSet hk fe hnd
  have hwf1 : ∀ p ∈ mem1, isWFEntry p.2 = true := by
    intro p hp
    rcases mem_dictSet hp with he | hx
    · rw [he]
      exact isWFEntry_freshEntry t v
    · exact hwf p hx
  have hki : keyItems mem1
      = Except.ok (mem1.map (fun q => (q, tsOf q))) := keyItems_of_wf hwf1
  set keyed := mem1.map (fun q => (q, tsOf q)) with hkeyed
  set sortedm := (sortByTs keyed).map Prod.fst with hsortedm
  by_cases hover : mem1.length > cap
  · rw [if_pos hover, prune_memory_dict_eq, hki, ok_bind]
    have hkfst : keyed.map Prod.fst = mem1 := by
      rw [hkeyed]
      induction mem1 with
      | nil => rfl
      | cons a r ih => simp [ih]
    have hperm : List.Perm (sortedm.map Prod.fst) (dictKeys mem1) := by
      have h1 := (sortByTs_perm keyed).map Prod.fst
      have h2 := h1.map Prod.fst
      rw [hkfst] at h2
      exact h2
    obtain ⟨out, hout⟩ := pruneLoop_ok_exists sortedm mem1 cap hnd1 hperm
    have houteq := pruneLoop_ok_eq sortedm mem1 out cap hout hnd1
    rw [hout, ok_bind, houteq]
  · rw [if_neg hover]
    have h0 : mem1.length - cap = 0 := by omega
    rw [h0, List.take_zero, List.map_nil]
    have hfid : mem1.filter
        (fun p => !(decide (p.1 ∈ ([] : List String)))) = mem1 := by
      apply List.filter_eq_self.mpr
      intro p _
      simp
    rw [hfid]

theorem keyed_map_keys (l : List (String × PyVal)) :
    (l.map (fun q => (q, tsOf q))).map (fun p => p.1.1) = dictKeys l := by
  induction l with
  | nil => rfl
  | cons a r ih => simp [dictKeys] at ih ⊢

/-! ### The claims -/

/-- C6: for every store, `save_memory` followed by `load_memory` into a
fresh store with the same `memory_timeout` and `max_memory_size` raises
nothing, restores exactly the same memory mapping (live and expired entries
alike), and yields a store observably identical under `get_from_memory` for
every key at every time. -/
theorem save_load_round_trip (s : PersistentMemoryLogicLoop) :
    (load_memory (pmll_init s.memory_timeout s.max_memory_size)
        (save_memory s)).2 = Option.none ∧
    ((load_memory (pmll_init s.memory_timeout s.max_memory_size)
        (save_memory s)).1).memory = s.memory ∧
    ∀ (t : Int) (key : PyVal),
      get_from_memory (load_memory (pmll_init s.memory_timeout
          s.max_memory_size) (save_memory s)).1 t key
        = get_from_memory s t key := by
  cases s with
  | mk m tt cap => exact ⟨rfl, rfl, fun t key => rfl⟩

/-- C7: `load_memory` on an existing but malformed (non-JSON) source raises
`json.JSONDecodeError` to the caller and leaves the in-memory mapping
exactly as it was (the exception fires before `self.memory` is assigned). -/
theorem load_malformed_preserves_state (s : PersistentMemoryLogicLoop) :
    load_memory s FileState.malformed = (s, some "JSONDecodeError") := rfl

/-- C8: `load_memory` on a missing source is not an error: the
`FileNotFoundError` is caught and the in-memory mapping is reset to the
empty dict. -/
theorem load_missing_resets_empty (s : PersistentMemoryLogicLoop) :
    load_memory s FileState.absent
      = (⟨PyVal.dict [], s.memory_timeout, s.max_memory_size⟩,
          Option.none) := rfl

/-- C3 counterexample: a present, fresh entry whose stored value is Python
`None` makes `get_from_memory` return exactly the same result as a lookup of
an absent key — the claimed distinguishable found/not-found signal does not
exist. -/
theorem stored_none_conflated_cex :
    get_from_memory ⟨PyVal.dict [("k", freshEntry 0 PyVal.none)], 300, 1024⟩
        0 (PyVal.str "k")
      = Except.ok (⟨PyVal.dict [("k", freshEntry 0 PyVal.none)], 300, 1024⟩,
          PyVal.none) ∧
    get_from_memory ⟨PyVal.dict [("k", freshEntry 0 PyVal.none)], 300, 1024⟩
        0 (PyVal.str "absent")
      = Except.ok (⟨PyVal.dict [("k", freshEntry 0 PyVal.none)], 300, 1024⟩,
          PyVal.none) :=
  ⟨rfl, rfl⟩

/-- C3 (amended): `get_from_memory` returns the stored value itself for a
present, fresh entry and returns Python `None` for an absent key; there is
no separate found/not-found signal, so a stored `None` is indistinguishable
from a miss. -/
theorem get_signal_is_value_or_none
    (xs ef : List (String × PyVal)) (tt : Int) (cap : Nat) (t : Int)
    (k k2 : String) (tsv : PyVal) (ts : Int) (v : PyVal)
    (hfind : dictFind xs (sha256_hexdigest k) = some (PyVal.dict ef))
    (hts : dictFind ef "timestamp" = some tsv)
    (htsi : pyToInt tsv = Except.ok ts)
    (hfresh : t - ts ≤ tt)
    (hdata : dictFind ef "data" = some v)
    (habs : dictHas xs (sha256_hexdigest k2) = false) :
    get_from_memory ⟨PyVal.dict xs, tt, cap⟩ t (PyVal.str k)
      = Except.ok (⟨PyVal.dict xs, tt, cap⟩, v) ∧
    get_from_memory ⟨PyVal.dict xs, tt, cap⟩ t (PyVal.str k2)
      = Except.ok (⟨PyVal.dict xs, tt, cap⟩, PyVal.none) :=
  ⟨get_hit hfind hts htsi hfresh hdata, get_absent habs⟩

theorem get_signal_is_value_or_none_witness :
    (dictFind [("k", freshEntry 0 PyVal.none)] (sha256_hexdigest "k")
        = some (PyVal.dict [("timestamp", PyVal.int 0),
            ("data", PyVal.none)]) ∧
      (0 : Int) - 0 ≤ 300 ∧
      dictHas [("k", freshEntry 0 PyVal.none)] (sha256_hexdigest "kk")
        = false) ∧
    (get_from_memory ⟨PyVal.dict [("k", freshEntry 0 PyVal.none)], 300,
          1024⟩ 0 (PyVal.str "k")
        = Except.ok (⟨PyVal.dict [("k", freshEntry 0 PyVal.none)], 300,
            1024⟩, PyVal.none) ∧
      get_from_memory ⟨PyVal.dict [("k", freshEntry 0 PyVal.none)], 300,
          1024⟩ 0 (PyVal.str "kk")
        = Except.ok (⟨PyVal.dict [("k", freshEntry 0 PyVal.none)], 300,
            1024⟩, PyVal.none)) :=
  ⟨⟨rfl, by decide, rfl⟩,
    get_signal_is_value_or_none [("k", freshEntry 0 PyVal.none)]
      [("timestamp", PyVal.int 0), ("data", PyVal.none)] 300 1024 0 "k" "kk"
      (PyVal.int 0) 0 PyVal.none rfl rfl rfl (by decide) rfl rfl⟩

/-- C1 counterexample: with `max_memory_size = 0` the freshly inserted entry
is immediately evicted by `_prune_memory`, so `get` right after `put`
returns `None`, not the stored value. -/
theorem put_get_capacity_zero_cex :
    add_to_memory (pmll_init 300 0) 0 (PyVal.str "k") (PyVal.int 7)
      = Except.ok (pmll_init 300 0) ∧
    get_from_memory (pmll_init 300 0) 0 (PyVal.str "k")
      = Except.ok (pmll_init 300 0, PyVal.none) ∧
    PyVal.none ≠ PyVal.int 7 :=
  ⟨rfl, rfl, fun h => PyVal.noConfusion h⟩

/-- C1 (amended): `put` followed immediately by `get` of the same key
returns the stored value, provided the store is a well-formed dict with
distinct keys, `max_memory_size ≥ 1`, `memory_timeout ≥ 0`, and the put
happens strictly later than every prior entry's timestamp (with capacity 0
the fresh entry is evicted at once, with a negative timeout it is already
expired, and a timestamp tie can evict the fresh entry instead of an old
one, as the counterexample shows for capacity 0). -/
theorem put_then_get_returns_value
    (xs : List (String × PyVal)) (tt : Int) (cap : Nat) (t : Int)
    (k : String) (v : PyVal)
    (hnd : (dictKeys xs).Nodup)
    (hwf : ∀ p ∈ xs, isWFEntry p.2 = true)
    (hcap : 1 ≤ cap)
    (httl : 0 ≤ tt)
    (hold : ∀ p ∈ xs, tsOf p < t) :
    ∃ s2, add_to_memory ⟨PyVal.dict xs, tt, cap⟩ t (PyVal.str k) v
        = Except.ok s2 ∧
      get_from_memory s2 t (PyVal.str k) = Except.ok (s2, v) := by
  have hok := @add_ok_of_wf xs tt cap t k v hnd hwf
  set hk := sha256_hexdigest k with hhk
  set fe := freshEntry t v with hfe
  set mem1 := dictSet xs hk fe with hmem1
  set keyed := mem1.map (fun q => (q, tsOf q)) with hkeyed
  set sigma := sortByTs keyed with hsigma
  set m := mem1.length - cap with hm
  set removedKeys := ((sigma.map Prod.fst).take m).map Prod.fst
    with hremoved
  set ys := mem1.filter (fun p => !(decide (p.1 ∈ removedKeys))) with hys
  refine ⟨⟨PyVal.dict ys, tt, cap⟩, hok, ?_⟩
  have hnd1 : (dictKeys mem1).Nodup := dictKeys_nodup_dictSet hk fe hnd
  have hsigsort : List.Pairwise tsLe sigma := sortByTs_pairwise keyed
  have hsignd : (sigma.map (fun p => p.1.1)).Nodup := by
    have hp1 := (sortByTs_perm keyed).map (fun p => p.1.1)
    rw [keyed_map_keys mem1] at hp1
    exact hp1.nodup_iff.mpr hnd1
  have hxm : ((hk, fe), t) ∈ keyed := by
    have h1 : (hk, fe) ∈ mem1 := mem_dictSet_self xs hk fe
    have h2 : ((hk, fe), tsOf (hk, fe)) ∈ keyed :=
      List.mem_map_of_mem (fun q => (q, tsOf q)) h1
    have h3 : tsOf (hk, fe) = t := by
      rw [hfe]
      exact tsOf_freshEntry hk t v
    rw [h3] at h2
    exact h2
  have hx : ((hk, fe), t) ∈ sigma := (sortByTs_perm keyed).mem_iff.mpr hxm
  have hmax : ∀ y ∈ sigma, y.1.1 ≠ ((hk, fe), t).1.1 → y.2 < ((hk, fe), t).2
      := by
    intro y hy hne
    have hyk : y ∈ keyed := (sortByTs_perm keyed).subset hy
    rcases List.mem_map.mp hyk with ⟨p, hpmem, hpe⟩
    have hp1 : p.1 ≠ hk := by
      intro hq
      apply hne
      rw [← hpe, hq]
    have hpxs : p ∈ xs := mem_dictSet_of_ne hpmem hp1
    have := hold p hpxs
    rw [← hpe]
    exact this
  have hlen1 : 1 ≤ mem1.length := by
    have h1 : (hk, fe) ∈ mem1 := mem_dictSet_self xs hk fe
    have := List.length_pos.mpr (List.ne_nil_of_mem h1)
    omega
  have hslen : sigma.length = mem1.length := by
    rw [(sortByTs_perm keyed).length_eq, hkeyed, List.length_map]
  have hmlt : m + 1 ≤ sigma.length := by
    rw [hslen]
    omega
  have htake := sorted_key_max_take hsigsort hsignd hx hmax hmlt
  have hknot : hk ∉ removedKeys := by
    intro hmem
    rw [hremoved] at hmem
    rcases List.mem_map.mp hmem with ⟨w, hw, hwe⟩
    have hw3 : w ∈ (sigma.take m).map Prod.fst := by
      rw [← List.map_take] at hw
      exact hw
    rcases List.mem_map.mp hw3 with ⟨z, hz, hze⟩
    exact htake z hz ((congrArg Prod.fst hze).trans hwe)
  have hfind2 : dictFind ys hk = some fe := by
    rw [hys]
    exact (dictFind_filter (fun s => !(decide (s ∈ removedKeys)))
        (by simp [hknot])).trans (dictFind_dictSet_self xs hk fe)
  exact get_hit hfind2 rfl rfl (by omega) rfl

theorem dictKeys_nodup_of_filter (xs : List (String × PyVal))
    (pred : (String × PyVal) → Bool) (hnd : (dictKeys xs).Nodup) :
    (dictKeys (xs.filter pred)).Nodup := by
  have hs : (xs.filter pred).Sublist xs := List.filter_sublist xs
  exact hnd.sublist (hs.map Prod.fst)

theorem put_then_get_returns_value_witness :
    ((dictKeys [("old", freshEntry 0 (PyVal.int 1))]).Nodup ∧
     (∀ p ∈ [("old", freshEntry 0 (PyVal.int 1))], isWFEntry p.2 = true) ∧
     (1 : Nat) ≤ 1 ∧ (0 : Int) ≤ 300 ∧
     (∀ p ∈ [("old", freshEntry 0 (PyVal.int 1))], tsOf p < 5)) ∧
    (∃ s2, add_to_memory ⟨PyVal.dict [("old", freshEntry 0 (PyVal.int 1))],
          300, 1⟩ 5 (PyVal.str "k") (PyVal.int 9) = Except.ok s2 ∧
      get_from_memory s2 5 (PyVal.str "k")
        = Except.ok (s2, PyVal.int 9)) :=
  ⟨⟨by decide, by decide, by decide, by decide, by decide⟩,
    put_then_get_returns_value [("old", freshEntry 0 (PyVal.int 1))] 300 1 5
      "k" (PyVal.int 9) (by decide) (by decide) (by decide) (by decide)
      (by decide)⟩

/-- C2: whenever `add_to_memory` returns normally on a store whose memory is
a dict with distinct keys, the resulting memory is a dict with distinct keys
holding at most `max_memory_size` entries, and when the insertion pushed the
count above `max_memory_size` the prune loop ran until the count equals
`max_memory_size` exactly.  Quantified over an arbitrary prior store, this
covers every put of every put sequence. -/
theorem put_respects_capacity
    (xs : List (String × PyVal)) (tt : Int) (cap : Nat) (t : Int)
    (key value : PyVal) (s2 : PersistentMemoryLogicLoop)
    (hnd : (dictKeys xs).Nodup)
    (hok : add_to_memory ⟨PyVal.dict xs, tt, cap⟩ t key value
      = Except.ok s2) :
    ∃ ys, s2.memory = PyVal.dict ys ∧ (dictKeys ys).Nodup ∧
      ys.length ≤ cap ∧
      (∀ hk, _hash_key key = Except.ok hk →
        (dictSet xs hk (freshEntry t value)).length > cap →
        ys.length = cap) := by
  cases key with
  | str k =>
      rw [add_to_memory_str_eq] at hok
      set mem1 := dictSet xs (sha256_hexdigest k) (freshEntry t value)
        with hmem1
      have hnd1 : (dictKeys mem1).Nodup := dictKeys_nodup_dictSet _ _ hnd
      by_cases hover : mem1.length > cap
      · rw [if_pos hover, prune_memory_dict_eq] at hok
        cases hki : keyItems mem1 with
        | error e => rw [hki, error_bind] at hok; simp at hok
        | ok keyed =>
            rw [hki, ok_bind] at hok
            cases hpl : pruneLoop ((sortByTs keyed).map Prod.fst) mem1 cap
              with
            | error e => rw [hpl, error_bind] at hok; simp at hok
            | ok out =>
                rw [hpl, ok_bind] at hok
                have hs2 : s2 = ⟨PyVal.dict out, tt, cap⟩ := by
                  cases hok
                  rfl
                have hlen := pruneLoop_length _ mem1 out cap hpl hnd1
                have hout_eq := pruneLoop_ok_eq _ mem1 out cap hpl hnd1
                refine ⟨out, by rw [hs2], ?_, by omega, ?_⟩
                · rw [hout_eq]
                  exact dictKeys_nodup_of_filter mem1 _ hnd1
                · intro hk hhk hov2
                  omega
      · rw [if_neg hover] at hok
        have hs2 : s2 = ⟨PyVal.dict mem1, tt, cap⟩ := by
          cases hok
          rfl
        refine ⟨mem1, by rw [hs2], hnd1, by omega, ?_⟩
        intro hk hhk hov2
        have hkk : hk = sha256_hexdigest k := by
          simp [_hash_key] at hhk
          exact hhk.symm
        rw [hkk] at hov2
        exact absurd hov2 hover
  | none =>
      have hbad : add_to_memory ⟨PyVal.dict xs, tt, cap⟩ t PyVal.none value
          = Except.error "AttributeError" := rfl
      rw [hbad] at hok
      simp at hok
  | bool b =>
      have hbad : add_to_memory ⟨PyVal.dict xs, tt, cap⟩ t (PyVal.bool b)
          value = Except.error "AttributeError" := rfl
      rw [hbad] at hok
      simp at hok
  | int n =>
      have hbad : add_to_memory ⟨PyVal.dict xs, tt, cap⟩ t (PyVal.int n)
          value = Except.error "AttributeError" := rfl
      rw [hbad] at hok
      simp at hok
  | list l =>
      have hbad : add_to_memory ⟨PyVal.dict xs, tt, cap⟩ t (PyVal.list l)
          value = Except.error "AttributeError" := rfl
      rw [hbad] at hok
      simp at hok
  | dict d =>
      have hbad : add_to_memory ⟨PyVal.dict xs, tt, cap⟩ t (PyVal.dict d)
          value = Except.error "AttributeError" := rfl
      rw [hbad] at hok
      simp at hok

theorem put_respects_capacity_witness :
    ((dictKeys [("a", freshEntry 0 (PyVal.int 1)),
        ("b", freshEntry 1 (PyVal.int 2))]).Nodup ∧
      add_to_memory ⟨PyVal.dict [("a", freshEntry 0 (PyVal.int 1)),
          ("b", freshEntry 1 (PyVal.int 2))], 300, 2⟩ 2 (PyVal.str "c")
          (PyVal.int 3)
        = Except.ok ⟨PyVal.dict [("b", freshEntry 1 (PyVal.int 2)),
            ("c", freshEntry 2 (PyVal.int 3))], 300, 2⟩) ∧
    (∃ ys, (⟨PyVal.dict [("b", freshEntry 1 (PyVal.int 2)),
          ("c", freshEntry 2 (PyVal.int 3))], 300, 2⟩ :
            PersistentMemoryLogicLoop).memory = PyVal.dict ys ∧
      (dictKeys ys).Nodup ∧ ys.length ≤ 2 ∧
      (∀ hk, _hash_key (PyVal.str "c") = Except.ok hk →
        (dictSet [("a", freshEntry 0 (PyVal.int 1)),
            ("b", freshEntry 1 (PyVal.int 2))] hk
          (freshEntry 2 (PyVal.int 3))).length > 2 → ys.length = 2)) :=
  ⟨⟨by decide, rfl⟩,
    put_respects_capacity [("a", freshEntry 0 (PyVal.int 1)),
        ("b", freshEntry 1 (PyVal.int 2))] 300 2 2 (PyVal.str "c")
      (PyVal.int 3) _ (by decide) rfl⟩

/-- C10: `load_memory` validates nothing beyond JSON well-formedness — any
JSON document (dict-shaped or not, entries well-formed or not) replaces the
memory wholesale with no error — and a later `get_from_memory` on a key
whose loaded entry is a dict without a `"timestamp"` field raises `KeyError`
instead of returning found or not-found. -/
theorem load_no_validation :
    (∀ (s : PersistentMemoryLogicLoop) (v : PyVal),
      load_memory s (FileState.jsonDoc v)
        = (⟨v, s.memory_timeout, s.max_memory_size⟩, Option.none)) ∧
    (∀ (xs ef : List (String × PyVal)) (tt : Int) (cap : Nat) (t : Int)
        (k : String),
      dictFind xs (sha256_hexdigest k) = some (PyVal.dict ef) →
      dictFind ef "timestamp" = Option.none →
      get_from_memory ⟨PyVal.dict xs, tt, cap⟩ t (PyVal.str k)
        = Except.error "KeyError") := by
  constructor
  · intro s v
    rfl
  · intro xs ef tt cap t k hfind hts
    have hhas := dictHas_of_find hfind
    rw [get_from_memory_str_eq, if_pos hhas]
    simp [pyGetItem, hfind, hts, ok_bind, error_bind]

theorem load_no_validation_witness :
    (dictFind [("k", PyVal.dict [])] (sha256_hexdigest "k")
        = some (PyVal.dict []) ∧
      dictFind ([] : List (String × PyVal)) "timestamp" = Option.none) ∧
    get_from_memory ⟨PyVal.dict [("k", PyVal.dict [])], 300, 1024⟩ 0
        (PyVal.str "k") = Except.error "KeyError" :=
  ⟨⟨rfl, rfl⟩,
    load_no_validation.2 [("k", PyVal.dict [])] [] 300 1024 0 "k" rfl rfl⟩

/-- C4: for a present entry, `get_from_memory` at time `t` returns the
stored value when `t - timestamp ≤ memory_timeout` (store untouched), and
when `t - timestamp > memory_timeout` it deletes the entry and returns
`None`; and a `get` of any other key never disturbs this entry (expired
entries are removed only by a `get` of that key, besides eviction during a
`put`). -/
theorem get_expiry_semantics
    (xs ef : List (String × PyVal)) (tt : Int) (cap : Nat) (t : Int)
    (k : String) (tsv : PyVal) (ts : Int)
    (hfind : dictFind xs (sha256_hexdigest k) = some (PyVal.dict ef))
    (hts : dictFind ef "timestamp" = some tsv)
    (htsi : pyToInt tsv = Except.ok ts) :
    (t - ts ≤ tt → ∀ v, dictFind ef "data" = some v →
      get_from_memory ⟨PyVal.dict xs, tt, cap⟩ t (PyVal.str k)
        = Except.ok (⟨PyVal.dict xs, tt, cap⟩, v)) ∧
    (tt < t - ts →
      get_from_memory ⟨PyVal.dict xs, tt, cap⟩ t (PyVal.str k)
        = Except.ok (⟨PyVal.dict (xs.filter (fun p =>
            !(p.1 = sha256_hexdigest k : Bool))), tt, cap⟩, PyVal.none) ∧
      dictHas (xs.filter (fun p => !(p.1 = sha256_hexdigest k : Bool)))
          (sha256_hexdigest k) = false ∧
      ∀ k2, k2 ≠ sha256_hexdigest k →
        dictFind (xs.filter (fun p => !(p.1 = sha256_hexdigest k : Bool)))
            k2
          = dictFind xs k2) ∧
    (∀ (t2 : Int) (k2 : String) (s2 : PersistentMemoryLogicLoop)
        (r : PyVal),
      sha256_hexdigest k2 ≠ sha256_hexdigest k →
      get_from_memory ⟨PyVal.dict xs, tt, cap⟩ t2 (PyVal.str k2)
        = Except.ok (s2, r) →
      ∃ ys2, s2.memory = PyVal.dict ys2 ∧
        dictFind ys2 (sha256_hexdigest k)
          = dictFind xs (sha256_hexdigest k)) := by
  refine ⟨?_, ?_, ?_⟩
  · intro hfresh v hdata
    exact get_hit hfind hts htsi hfresh hdata
  · intro hstale
    refine ⟨get_expired hfind hts htsi (by omega),
      dictHas_filter_self xs _, ?_⟩
    intro k2 hk2
    exact dictFind_filter (fun s => !(s = sha256_hexdigest k : Bool))
      (by simp [hk2])
  · intro t2 k2 s2 r hne hok2
    rcases get_ok_inversion hok2 with h1 | h2
    · exact ⟨xs, by rw [h1], rfl⟩
    · refine ⟨xs.filter (fun p => !(p.1 = sha256_hexdigest k2 : Bool)),
        by rw [h2], ?_⟩
      refine dictFind_filter (fun s => !(s = sha256_hexdigest k2 : Bool)) ?_
      simp
      intro h
      exact hne h.symm

theorem get_expiry_semantics_witness :
    (dictFind [("k", freshEntry 0 (PyVal.int 5))] (sha256_hexdigest "k")
        = some (PyVal.dict [("timestamp", PyVal.int 0),
            ("data", PyVal.int 5)]) ∧
      dictFind [("timestamp", PyVal.int 0), ("data", PyVal.int 5)]
          "timestamp" = some (PyVal.int 0) ∧
      pyToInt (PyVal.int 0) = Except.ok 0 ∧
      (1 : Int) - 0 ≤ 300) ∧
    get_from_memory ⟨PyVal.dict [("k", freshEntry 0 (PyVal.int 5))], 300,
        1024⟩ 1 (PyVal.str "k")
      = Except.ok (⟨PyVal.dict [("k", freshEntry 0 (PyVal.int 5))], 300,
          1024⟩, PyVal.int 5) :=
  ⟨⟨rfl, rfl, rfl, by decide⟩,
    (get_expiry_semantics [("k", freshEntry 0 (PyVal.int 5))]
        [("timestamp", PyVal.int 0), ("data", PyVal.int 5)] 300 1024 1 "k"
        (PyVal.int 0) 0 rfl rfl rfl).1 (by decide) (PyVal.int 5) rfl⟩

/-- C9 counterexample: a string key does not guarantee a raise-free call —
`get_from_memory` with the string key "k" raises `KeyError` when the stored
entry (e.g. loaded from a hand-edited snapshot) has no `"timestamp"` field,
so "for every string key they do not raise" is false as stated. -/
theorem string_key_get_raises_cex :
    get_from_memory ⟨PyVal.dict [("k", PyVal.dict [("data", PyVal.int 1)])],
        300, 1024⟩ 0 (PyVal.str "k") = Except.error "KeyError" := rfl

/-- C9 (amended): every non-string key makes `add_to_memory` and
`get_from_memory` raise `AttributeError` inside `_hash_key`
(`key.encode()`); the hashing step itself never raises for a string key;
and on a store whose memory is a dict of well-formed entries with distinct
keys, `add_to_memory` and `get_from_memory` with a string key return
normally (a string key alone does not prevent a raise on a malformed store,
as the counterexample shows). -/
theorem key_hashing_requires_string :
    (∀ (s : PersistentMemoryLogicLoop) (t : Int) (key value : PyVal),
      (∀ s0 : String, key ≠ PyVal.str s0) →
      add_to_memory s t key value = Except.error "AttributeError" ∧
      get_from_memory s t key = Except.error "AttributeError") ∧
    (∀ k : String, _hash_key (PyVal.str k)
      = Except.ok (sha256_hexdigest k)) ∧
    (∀ (xs : List (String × PyVal)) (tt : Int) (cap : Nat) (t : Int)
        (k : String) (v : PyVal),
      (dictKeys xs).Nodup → (∀ p ∈ xs, isWFEntry p.2 = true) →
      (∃ s2, add_to_memory ⟨PyVal.dict xs, tt, cap⟩ t (PyVal.str k) v
        = Except.ok s2) ∧
      (∃ r, get_from_memory ⟨PyVal.dict xs, tt, cap⟩ t (PyVal.str k)
        = Except.ok r)) := by
  refine ⟨?_, fun k => rfl, ?_⟩
  · intro s t key value hns
    cases key with
    | str s0 => exact absurd rfl (hns s0)
    | none => exact ⟨rfl, rfl⟩
    | bool b => exact ⟨rfl, rfl⟩
    | int n => exact ⟨rfl, rfl⟩
    | list l => exact ⟨rfl, rfl⟩
    | dict d => exact ⟨rfl, rfl⟩
  · intro xs tt cap t k v hnd hwf
    constructor
    · exact ⟨_, @add_ok_of_wf xs tt cap t k v hnd hwf⟩
    · by_cases hhas : dictHas xs (sha256_hexdigest k) = true
      · cases hfind : dictFind xs (sha256_hexdigest k) with
        | none =>
            exfalso
            have h2 := @dictFind_isSome xs (sha256_hexdigest k)
            rw [hfind, hhas] at h2
            simp at h2
        | some e =>
            have hmem := dictFind_mem hfind
            have hwfe := hwf _ hmem
            rcases wf_entry_shape hwfe with
              ⟨ef, tsv, ts2, dv, hee, hts, htsi, hdata⟩
            subst hee
            by_cases hfr : t - ts2 ≤ tt
            · exact ⟨_, get_hit hfind hts htsi hfr hdata⟩
            · exact ⟨_, get_expired hfind hts htsi hfr⟩
      · have hf : dictHas xs (sha256_hexdigest k) = false := by
          cases hv : dictHas xs (sha256_hexdigest k) with
          | false => rfl
          | true => exact absurd hv hhas
        exact ⟨_, get_absent hf⟩

theorem key_hashing_requires_string_witness :
    ((∀ s0 : String, PyVal.int 3 ≠ PyVal.str s0) ∧
      (dictKeys ([] : List (String × PyVal))).Nodup ∧
      (∀ p ∈ ([] : List (String × PyVal)), isWFEntry p.2 = true)) ∧
    ((add_to_memory (pmll_init 300 1024) 0 (PyVal.int 3) (PyVal.int 1)
        = Except.error "AttributeError" ∧
      get_from_memory (pmll_init 300 1024) 0 (PyVal.int 3)
        = Except.error "AttributeError") ∧
     (∃ s2, add_to_memory ⟨PyVal.dict [], 300, 1024⟩ 0 (PyVal.str "k")
        (PyVal.int 1) = Except.ok s2) ∧
     (∃ r, get_from_memory ⟨PyVal.dict [], 300, 1024⟩ 0 (PyVal.str "k")
        = Except.ok r)) :=
  ⟨⟨fun s0 h => PyVal.noConfusion h, by decide, by decide⟩,
    key_hashing_requires_string.1 (pmll_init 300 1024) 0 (PyVal.int 3)
      (PyVal.int 1) (fun s0 h => PyVal.noConfusion h),
    key_hashing_requires_string.2.2 [] 300 1024 0 "k" (PyVal.int 1)
      (by decide) (by decide)⟩

/-- C5: when a `put` on a well-formed store returns normally, every entry it
evicted has a timestamp no greater than every surviving entry's timestamp
(oldest absolute write time first, per the stable sort); and in particular
with `max_memory_size = 2`, `put a`, `put b`, `put c` at strictly increasing
times leave `get a` returning `None` while `get b` and `get c` return their
stored values. -/
theorem eviction_oldest_first :
    (∀ (xs : List (String × PyVal)) (tt : Int) (cap : Nat) (t : Int)
        (k : String) (v : PyVal) (ys : List (String × PyVal)),
      (dictKeys xs).Nodup → (∀ p ∈ xs, isWFEntry p.2 = true) →
      add_to_memory ⟨PyVal.dict xs, tt, cap⟩ t (PyVal.str k) v
        = Except.ok ⟨PyVal.dict ys, tt, cap⟩ →
      ∀ p ∈ dictSet xs (sha256_hexdigest k) (freshEntry t v),
        dictHas ys p.1 = false →
        ∀ q ∈ ys, tsOf p ≤ tsOf q) ∧
    (add_to_memory (pmll_init 300 2) 10 (PyVal.str "a") (PyVal.int 1)
        = Except.ok ⟨PyVal.dict [("a", freshEntry 10 (PyVal.int 1))], 300,
            2⟩ ∧
      add_to_memory ⟨PyVal.dict [("a", freshEntry 10 (PyVal.int 1))], 300,
          2⟩ 11 (PyVal.str "b") (PyVal.int 2)
        = Except.ok ⟨PyVal.dict [("a", freshEntry 10 (PyVal.int 1)),
            ("b", freshEntry 11 (PyVal.int 2))], 300, 2⟩ ∧
      add_to_memory ⟨PyVal.dict [("a", freshEntry 10 (PyVal.int 1)),
          ("b", freshEntry 11 (PyVal.int 2))], 300, 2⟩ 12 (PyVal.str "c")
          (PyVal.int 3)
        = Except.ok ⟨PyVal.dict [("b", freshEntry 11 (PyVal.int 2)),
            ("c", freshEntry 12 (PyVal.int 3))], 300, 2⟩ ∧
      get_from_memory ⟨PyVal.dict [("b", freshEntry 11 (PyVal.int 2)),
          ("c", freshEntry 12 (PyVal.int 3))], 300, 2⟩ 12 (PyVal.str "a")
        = Except.ok (⟨PyVal.dict [("b", freshEntry 11 (PyVal.int 2)),
            ("c", freshEntry 12 (PyVal.int 3))], 300, 2⟩, PyVal.none) ∧
      get_from_memory ⟨PyVal.dict [("b", freshEntry 11 (PyVal.int 2)),
          ("c", freshEntry 12 (PyVal.int 3))], 300, 2⟩ 12 (PyVal.str "b")
        = Except.ok (⟨PyVal.dict [("b", freshEntry 11 (PyVal.int 2)),
            ("c", freshEntry 12 (PyVal.int 3))], 300, 2⟩, PyVal.int 2) ∧
      get_from_memory ⟨PyVal.dict [("b", freshEntry 11 (PyVal.int 2)),
          ("c", freshEntry 12 (PyVal.int 3))], 300, 2⟩ 12 (PyVal.str "c")
        = Except.ok (⟨PyVal.dict [("b", freshEntry 11 (PyVal.int 2)),
            ("c", freshEntry 12 (PyVal.int 3))], 300, 2⟩, PyVal.int 3)) := by
  constructor
  · intro xs tt cap t k v ys hnd hwf hok p hpmem hpgone q hq
    have hok2 := @add_ok_of_wf xs tt cap t k v hnd hwf
    set hk := sha256_hexdigest k with hhk
    set fe := freshEntry t v with hfe
    set mem1 := dictSet xs hk fe with hmem1
    set keyed := mem1.map (fun q2 => (q2, tsOf q2)) with hkeyed
    set sigma := sortByTs keyed with hsigma
    set m := mem1.length - cap with hmdef
    set removedKeys := ((sigma.map Prod.fst).take m).map Prod.fst
      with hremoved
    have hys : ys = mem1.filter (fun p2 => !(decide (p2.1 ∈ removedKeys)))
        := by
      have heq := hok.symm.trans hok2
      have hinj := Except.ok.inj heq
      have hmemeq := congrArg PersistentMemoryLogicLoop.memory hinj
      simpa using hmemeq
    have hnd1 : (dictKeys mem1).Nodup := dictKeys_nodup_dictSet hk fe hnd
    have hnd1f : (mem1.map Prod.fst).Nodup := hnd1
    -- the evicted key is among the removed prefix of the sorted items
    have hprem : p.1 ∈ removedKeys := by
      by_contra hnot
      have hpys : p ∈ ys := by
        rw [hys]
        exact List.mem_filter.mpr ⟨hpmem, by simp [hnot]⟩
      have hhas : dictHas ys p.1 = true :=
        dictHas_iff_mem_keys.mpr (List.mem_map_of_mem Prod.fst hpys)
      rw [hpgone] at hhas
      simp at hhas
    have hqmem : q ∈ mem1 ∧ q.1 ∉ removedKeys := by
      have hqf := List.mem_filter.mp (by rw [← hys]; exact hq)
      refine ⟨hqf.1, ?_⟩
      have := hqf.2
      simpa using this
    -- locate the evicted entry inside the sorted prefix
    rcases List.mem_map.mp hprem with ⟨w, hw, hwe⟩
    have hw3 : w ∈ (sigma.take m).map Prod.fst := by
      rw [← List.map_take] at hw
      exact hw
    rcases List.mem_map.mp hw3 with ⟨z, hz, hze⟩
    have hzs : z ∈ sigma := (List.take_sublist m sigma).subset hz
    have hzk : z ∈ keyed := (sortByTs_perm keyed).subset hzs
    rcases List.mem_map.mp hzk with ⟨pz, hpzmem, hpze⟩
    have hpzkey : pz.1 = p.1 := by
      have h1 : z.1 = w := hze
      have h2 : z.1 = pz := by rw [← hpze]
      rw [h2] at h1
      rw [h1]
      exact hwe
    have hpz : pz = p :=
      List.inj_on_of_nodup_map hnd1f hpzmem hpmem hpzkey
    have hzp : z = (p, tsOf p) := by
      rw [← hpze, hpz]
    -- locate the surviving entry in the dropped suffix
    have hqk : (q, tsOf q) ∈ sigma :=
      (sortByTs_perm keyed).mem_iff.mpr
        (List.mem_map_of_mem (fun q2 => (q2, tsOf q2)) hqmem.1)
    have hqdrop : (q, tsOf q) ∈ sigma.drop m := by
      have hsplit := List.take_append_drop m sigma
      have : (q, tsOf q) ∈ sigma.take m ++ sigma.drop m := by
        rw [hsplit]
        exact hqk
      rcases List.mem_append.mp this with htk | hdr
      · exfalso
        apply hqmem.2
        rw [hremoved]
        have h1 : (q, tsOf q).1 ∈ (sigma.take m).map Prod.fst :=
          List.mem_map_of_mem Prod.fst htk
        have h2 : (q, tsOf q).1.1 ∈ ((sigma.take m).map Prod.fst).map
            Prod.fst := List.mem_map_of_mem Prod.fst h1
        rw [List.map_take] at h2
        rw [← List.map_take] at h2
        rw [List.map_take] at h2
        exact h2
      · exact hdr
    -- the sorted prefix is pointwise no younger than the suffix
    have hpw : List.Pairwise tsLe (sigma.take m ++ sigma.drop m) := by
      rw [List.take_append_drop]
      exact sortByTs_pairwise keyed
    have hle := (List.pairwise_append.mp hpw).2.2 z hz (q, tsOf q) hqdrop
    rw [hzp] at hle
    exact hle
  · exact ⟨rfl, rfl, rfl, rfl, rfl, rfl⟩

theorem eviction_oldest_first_witness :
    ((dictKeys [("a", freshEntry 10 (PyVal.int 1)),
        ("b", freshEntry 11 (PyVal.int 2))]).Nodup ∧
      (∀ p ∈ [("a", freshEntry 10 (PyVal.int 1)),
        ("b", freshEntry 11 (PyVal.int 2))], isWFEntry p.2 = true) ∧
      add_to_memory ⟨PyVal.dict [("a", freshEntry 10 (PyVal.int 1)),
          ("b", freshEntry 11 (PyVal.int 2))], 300, 2⟩ 12 (PyVal.str "c")
          (PyVal.int 3)
        = Except.ok ⟨PyVal.dict [("b", freshEntry 11 (PyVal.int 2)),
            ("c", freshEntry 12 (PyVal.int 3))], 300, 2⟩) ∧
    (∀ p ∈ dictSet [("a", freshEntry 10 (PyVal.int 1)),
        ("b", freshEntry 11 (PyVal.int 2))] (sha256_hexdigest "c")
        (freshEntry 12 (PyVal.int 3)),
      dictHas [("b", freshEntry 11 (PyVal.int 2)),
          ("c", freshEntry 12 (PyVal.int 3))] p.1 = false →
      ∀ q ∈ [("b", freshEntry 11 (PyVal.int 2)),
          ("c", freshEntry 12 (PyVal.int 3))], tsOf p ≤ tsOf q) :=
  ⟨⟨by decide, by decide, rfl⟩,
    eviction_oldest_first.1 [("a", freshEntry 10 (PyVal.int 1)),
        ("b", freshEntry 11 (PyVal.int 2))] 300 2 12 "c" (PyVal.int 3)
      [("b", freshEntry 11 (PyVal.int 2)),
        ("c", freshEntry 12 (PyVal.int 3))] (by decide) (by decide) rfl⟩
